import Mathlib

/-!
Shallow embedding of the core of `scan_market.py` (TW_stocksystem): the
market-wide multi-strategy scan orchestrator (`market_scan_all_strategies`)
and the cross-strategy ranking aggregator (`compute_overall_ranking`).

Modelling conventions:
* Python floats are modelled as exact rationals (`ℚ`).
* External collaborators (the Backtest Engine `engine.run`, the data files on
  disk, the institutional data loader) become explicit parameters: an engine
  is a function `RunDF → String → Option Metrics` (`none` models any raised
  exception or malformed result, which the scan's catch-all handlers turn
  into a skip), the universe is a `List Instrument`, and the process-global
  `INSTITUTIONAL_DATA` availability is a `Bool`.
* Fallible steps (`pd.read_csv`, `load_stock_with_institutional`) are
  `Option`-valued fields of `Instrument`.
* A pandas `DataFrame` of accumulated per-strategy rows is a `List RowResult`;
  the `results` dict (whose keys are exactly the battery's strategy names, in
  insertion order) is a `List (String × List RowResult)` in battery order.
-/

namespace TWScan

/-- The metrics dict produced by `engine.run(run_df, strategy)['metrics']`
(`result['metrics']` in `market_scan_all_strategies`). -/
structure Metrics where
  total_return : ℚ
  sharpe_ratio : ℚ
  max_drawdown : ℚ
  win_rate : ℚ
  trade_count : ℕ
deriving DecidableEq

/-- The slice of a per-instrument price DataFrame the core inspects: the
`volume` column (used by the liquidity gate `df['volume'].mean()`). The other
OHLC columns are opaque to the core (only the engine consumes them), so they
are not represented. A CSV whose `volume` column is missing raises `KeyError`
and is covered by `Instrument.data = none`. -/
structure PriceDF where
  volume : List ℚ
deriving DecidableEq

/-- The merged price+institutional DataFrame returned by
`load_stock_with_institutional`. The core only tests `.empty` (no rows) and
otherwise passes it opaquely to the engine, so only the row count matters;
rows are abstract tokens. -/
structure InstDF where
  rows : List ℕ
deriving DecidableEq

/-- One CSV file of the universe. `ticker`/`name` are the two pieces parsed
from the file name (`basename.split('_')[0]` and
`basename.replace('.csv','').split('_',1)[-1]`, both total). `data = none`
models `pd.read_csv` raising or the `df['volume']` access failing (outer
`except: continue`); `instData = none` models `load_stock_with_institutional`
raising (inner `except: pass`, leaving `df_with_inst = None`). -/
structure Instrument where
  ticker : String
  name : String
  data : Option PriceDF
  instData : Option InstDF
deriving DecidableEq

/-- The `run_df` argument of `engine.run`: either the raw price DataFrame or
the merged institutional DataFrame. -/
def RunDF : Type := Sum PriceDF InstDF

/-- One dict appended to `results[strategy_name]` in
`market_scan_all_strategies`. -/
structure RowResult where
  ticker : String
  name : String
  total_return : ℚ
  sharpe_ratio : ℚ
  max_drawdown : ℚ
  win_rate : ℚ
  trade_count : ℕ
deriving DecidableEq

/-- The per-ticker accumulator value of `stock_stats` in
`compute_overall_ranking`. -/
structure Stats where
  name : String
  strategies : List String
  sharpe_list : List ℚ
  return_list : List ℚ
  best_sharpe : ℚ
  best_strategy : String
deriving DecidableEq

/-- One dict appended to `ranking_data` in `compute_overall_ranking`
(a composite ranking entry). -/
structure Entry where
  ticker : String
  name : String
  score : ℚ
  strategy_count : ℕ
  avg_sharpe : ℚ
  avg_return : ℚ
  best_strategy : String
  best_sharpe : ℚ
  strategies : String
deriving DecidableEq

/-- `startsWithL p s` : `p` is an initial segment of `s` (on characters). -/
def startsWithL : List Char → List Char → Bool
  | [], _ => true
  | _ :: _, [] => false
  | p :: ps, c :: cs => p = c && startsWithL ps cs

/-- `containsSub p s` : `p` occurs contiguously somewhere in `s`; this is
Python's `p in s` on strings. -/
def containsSub (pat : List Char) : List Char → Bool
  | [] => startsWithL pat []
  | c :: cs => startsWithL pat (c :: cs) || containsSub pat cs

/-- The input-selection test of the scan loop:
`'連買' in strategy_name or '連賣' in strategy_name`. -/
def isInstFlow (sname : String) : Bool :=
  containsSub "連買".data sname.data || containsSub "連賣".data sname.data

/-- `get_all_strategies`: the fixed battery of strategy display names, plus
the two institutional strategies when the process-global institutional
dataset loaded (`INSTITUTIONAL_DATA is not None`). The strategy objects
themselves are opaque to the core (they are handed to the engine unchanged),
so the battery is modelled by its names, which are unique within a scan. -/
def get_all_strategies (instLoaded : Bool) : List String :=
  ["MA5x20", "MA5x60", "RSI", "MACD", "布林通道", "動量突破", "量價突破", "海龜策略"] ++
    (if instLoaded then ["外資連買", "投信連買"] else [])

/-- `df['volume'].mean()`: `none` for an empty column (pandas yields NaN). -/
def meanVolume (df : PriceDF) : Option ℚ :=
  if df.volume.isEmpty then none
  else some (df.volume.sum / (df.volume.length : ℚ))

/-- The liquidity gate: the instrument proceeds unless
`df['volume'].mean() < min_volume`. An empty column gives NaN, and
`NaN < min_volume` is `False` in Python, so the instrument proceeds. -/
def gatePasses (df : PriceDF) (min_volume : ℚ) : Bool :=
  match meanVolume df with
  | some m => !(m < min_volume)
  | none => true

/-- `df_with_inst` as seen by the strategy loop: it is only ever assigned
when `INSTITUTIONAL_DATA is not None`, otherwise it stays `None`. -/
def effectiveInst (instLoaded : Bool) (i : Instrument) : Option InstDF :=
  if instLoaded then i.instData else none

/-- The body of the inner `try` up to `engine.run`: institutional-flow
strategies (name contains 連買/連賣) require a non-`None`, non-empty merged
series and run on it; every other strategy runs on the raw price DataFrame.
`none` models the `continue` (skip) outcome. -/
def evalPair (run : RunDF → String → Option Metrics) (instLoaded : Bool)
    (i : Instrument) (df : PriceDF) (sname : String) : Option Metrics :=
  if isInstFlow sname then
    match effectiveInst instLoaded i with
    | none => none
    | some idf => if idf.rows.isEmpty then none else run (Sum.inr idf) sname
  else run (Sum.inl df) sname

/-- The dict literal appended to `results[strategy_name]`. -/
def mkRow (i : Instrument) (m : Metrics) : RowResult :=
  { ticker := i.ticker
    name := i.name
    total_return := m.total_return
    sharpe_ratio := m.sharpe_ratio
    max_drawdown := m.max_drawdown
    win_rate := m.win_rate
    trade_count := m.trade_count }

/-- The rest of the inner `try` body: run the selected series through the
engine and accept the result only if `m['trade_count'] >= 3`; `none` is a
skipped pair (engine failure, unavailable institutional series, or too few
trades). -/
def rowOf (run : RunDF → String → Option Metrics) (instLoaded : Bool)
    (i : Instrument) (df : PriceDF) (s : String) : Option RowResult :=
  match evalPair run instLoaded i df s with
  | some m => if 3 ≤ m.trade_count then some (mkRow i m) else none
  | none => none

/-- One iteration of the outer `for csv_path in files` loop: the rows this
instrument appends, tagged with their strategy name, in battery order. A
failed load (`data = none`) or a failed liquidity gate contributes nothing to
any strategy (the gate is checked once, before the strategy loop). -/
def scanInstrument (run : RunDF → String → Option Metrics) (instLoaded : Bool)
    (min_volume : ℚ) (strategies : List String) (i : Instrument) :
    List (String × RowResult) :=
  match i.data with
  | none => []
  | some df =>
    if gatePasses df min_volume then
      strategies.filterMap (fun s => (rowOf run instLoaded i df s).map (fun r => (s, r)))
    else []

/-- Selects, from an instrument's tagged rows, the row(s) for strategy `s`. -/
def pickRow (s : String) (p : String × RowResult) : Option RowResult :=
  if p.1 = s then some p.2 else none

/-- The `results` dict after the scan loop, before sorting: keys are exactly
the battery names (dict-comprehension insertion order = battery order), and
`results[s]` holds the accepted rows for `s` in universe order (the outer
loop is file-major, so each strategy's list grows in file order). -/
def scanResults (run : RunDF → String → Option Metrics) (instLoaded : Bool)
    (min_volume : ℚ) (strategies : List String) (files : List Instrument) :
    List (String × List RowResult) :=
  strategies.map (fun s =>
    (s, files.flatMap (fun i =>
      (scanInstrument run instLoaded min_volume strategies i).filterMap (pickRow s))))

/-- Insert `r` into a list already sorted by `key` descending, after every
element with a strictly greater key and before the first element whose key is
not strictly greater (so among equal keys the element inserted later — which
came later in the original list — ends up after the earlier ones). -/
def insertDescBy (key : α → ℚ) (r : α) : List α → List α
  | [] => [r]
  | x :: xs => if key r < key x then x :: insertDescBy key r xs else r :: x :: xs

/-- Model of `DataFrame.sort_values(column, ascending=False)`: sort by `key`
descending, keeping elements with exactly equal keys in their original
relative order (earlier-first).

Modelling note: pandas computes the descending order by reversing the values
and the index, running `numpy.argsort` with the configured `kind`, and
reversing the resulting indexer again, so with a stable underlying argsort
the net effect is exactly this stable descending sort. The code leaves
`kind` at its default `'quicksort'` (numpy's introsort), which numpy runs as
a plain insertion sort — stable — whenever the array is shorter than 16
elements, and as an unstable introsort beyond that. This model therefore
agrees with the code exactly on inputs shorter than 16 elements and agrees
up to the order of exactly-equal keys on longer inputs; no theorem below
about tie order is drawn from it on longer inputs. -/
def sortDescBy (key : α → ℚ) : List α → List α
  | [] => []
  | x :: xs => insertDescBy key x (sortDescBy key xs)

/-- The post-scan normalization of `market_scan_all_strategies`: each
strategy's accumulated rows are sorted by `sharpe_ratio` descending and
truncated with `.head(top_n)`; an empty accumulation stays an empty
DataFrame (both branches are the empty list here, since sorting and
truncating an empty list is the empty list). -/
def rankResults (top_n : ℕ) (results : List (String × List RowResult)) :
    List (String × List RowResult) :=
  results.map (fun p =>
    (p.1, (sortDescBy (fun r => r.sharpe_ratio) p.2).take top_n))

/-- The rows one `(instrument, strategy)` pair contributes to that strategy's
accumulated results: the per-pair restriction of `scanInstrument` (same load
check, same liquidity gate, same evaluation, same acceptance test). Used to
state isolation: the scan's accumulated list for a strategy is the
concatenation of these per-pair contributions over the universe. -/
def pairContribution (run : RunDF → String → Option Metrics) (instLoaded : Bool)
    (min_volume : ℚ) (i : Instrument) (s : String) : List RowResult :=
  match i.data with
  | none => []
  | some df =>
    if gatePasses df min_volume then
      (rowOf run instLoaded i df s).toList
    else []

/-- The fresh per-ticker accumulator created on first sight of a ticker in
`compute_overall_ranking` (`name` is the first-seen row's name; lists empty;
running best starts at `0` with an empty `best_strategy`). -/
def initStats (r : RowResult) : Stats :=
  { name := r.name
    strategies := []
    sharpe_list := []
    return_list := []
    best_sharpe := 0
    best_strategy := "" }

/-- The per-row accumulator update of `compute_overall_ranking`: append the
strategy name, sharpe and return, then update the running best on a strictly
greater sharpe (`row['sharpe_ratio'] > stats['best_sharpe']`). -/
def addRow (sname : String) (r : RowResult) (st : Stats) : Stats :=
  let st1 : Stats :=
    { st with
      strategies := st.strategies ++ [sname]
      sharpe_list := st.sharpe_list ++ [r.sharpe_ratio]
      return_list := st.return_list ++ [r.total_return] }
  if st1.best_sharpe < r.sharpe_ratio then
    { st1 with best_sharpe := r.sharpe_ratio, best_strategy := sname }
  else st1

/-- One row's effect on the `stock_stats` dict (an insertion-ordered
association list, like a Python dict): update the ticker's accumulator in
place, or append a fresh one — created together with its first append, so an
accumulator never exists with empty lists. -/
def updateStats (sname : String) (r : RowResult) :
    List (String × Stats) → List (String × Stats)
  | [] => [(r.ticker, addRow sname r (initStats r))]
  | (t, st) :: rest =>
    if t = r.ticker then (t, addRow sname r st) :: rest
    else (t, st) :: updateStats sname r rest

/-- The sequence of `(strategy_name, row)` pairs `compute_overall_ranking`
iterates: for each `(strategy_name, df)` of the leaderboards mapping in
order, each row of `df` in order (`for _, row in df.iterrows()`); an empty
`df` contributes nothing (`if df.empty: continue`). -/
def rowsSeq (results : List (String × List RowResult)) : List (String × RowResult) :=
  results.flatMap (fun p => p.2.map (fun r => (p.1, r)))

/-- The `stock_stats` dict after the accumulation loops of
`compute_overall_ranking`. -/
def stockStats (results : List (String × List RowResult)) : List (String × Stats) :=
  (rowsSeq results).foldl (fun m q => updateStats q.1 q.2 m) []

/-- The dict appended to `ranking_data` for one ticker: averages are sums
divided by `strategy_count = len(strategies)`, the score is
`strategy_count * avg_sharpe`, and the display string joins the first three
strategy names with a continuation marker when there are more. -/
def mkEntry (t : String) (st : Stats) : Entry :=
  let strategy_count := st.strategies.length
  let avg_sharpe := st.sharpe_list.sum / (strategy_count : ℚ)
  let avg_return := st.return_list.sum / (strategy_count : ℚ)
  { ticker := t
    name := st.name
    score := (strategy_count : ℚ) * avg_sharpe
    strategy_count := strategy_count
    avg_sharpe := avg_sharpe
    avg_return := avg_return
    best_strategy := st.best_strategy
    best_sharpe := st.best_sharpe
    strategies := String.intercalate ", " (st.strategies.take 3) ++
      (if 3 < strategy_count then "..." else "") }

/-- `ranking_data`: one composite entry per `stock_stats` key, in ticker
first-seen order. -/
def rankingData (results : List (String × List RowResult)) : List Entry :=
  (stockStats results).map (fun p => mkEntry p.1 p.2)

/-- `compute_overall_ranking(results, top_n)`: build `ranking_data`, sort by
`score` descending and keep the first `top_n` (the `if not ranking_df.empty`
guard is the identity on the empty list). -/
def compute_overall_ranking (results : List (String × List RowResult))
    (top_n : ℕ) : List Entry :=
  (sortDescBy (fun e => e.score) (rankingData results)).take top_n

/-- `market_scan_all_strategies(top_n, min_volume)` with its collaborators
explicit: the engine `run`, the universe `files` (the directory's CSVs, in
enumeration order), and whether the global institutional dataset loaded. In
the Python source `top_n` and `min_volume` default to 30 and 500; note that
the call `compute_overall_ranking(results)` does NOT forward `top_n`, so the
aggregator runs with its own default `top_n=30` — hence the literal `30`. -/
def market_scan_all_strategies (run : RunDF → String → Option Metrics)
    (files : List Instrument) (instLoaded : Bool) (top_n : ℕ) (min_volume : ℚ) :
    List (String × List RowResult) × List Entry :=
  let strategies := get_all_strategies instLoaded
  let results := rankResults top_n (scanResults run instLoaded min_volume strategies files)
  (results, compute_overall_ranking results 30)

/-- Association-list lookup by string key (first match), used to state
per-strategy facts about the `results` mapping. -/
def lookupS (s : String) : List (String × α) → Option α
  | [] => none
  | (k, v) :: rest => if k = s then some v else lookupS s rest

/-! ### Concrete fixtures (used by counterexamples, evaluations and
witnesses below) -/

/-- A leaderboard row with a negative sharpe ratio. -/
def cexRow : RowResult :=
  { ticker := "2330", name := "tsmc", total_return := -1, sharpe_ratio := -1,
    max_drawdown := 0, win_rate := 0, trade_count := 3 }

/-- A leaderboards mapping whose single retained row has sharpe `-1`. -/
def cexLb : List (String × List RowResult) := [("MA5x20", [cexRow])]

/-- Metrics with a given sharpe ratio and 3 trades (just enough to be
accepted). -/
def mets3 (sh : ℚ) : Metrics :=
  { total_return := 0, sharpe_ratio := sh, max_drawdown := 0, win_rate := 0,
    trade_count := 3 }

/-- A liquid instrument (mean volume 1000). -/
def fileA : Instrument :=
  { ticker := "AAA", name := "aaa", data := some { volume := [1000] }, instData := none }

/-- A second liquid instrument, distinguishable by its data (mean volume
2000). -/
def fileB : Instrument :=
  { ticker := "BBB", name := "bbb", data := some { volume := [2000] }, instData := none }

/-- An engine that accepts `fileA`'s data only under MA5x20 and `fileB`'s
data only under MA5x60, so the two leaderboards hold two distinct tickers. -/
def runBug : RunDF → String → Option Metrics
  | Sum.inl df, s =>
    if df.volume = [1000] then (if s = "MA5x20" then some (mets3 2) else none)
    else (if s = "MA5x60" then some (mets3 1) else none)
  | Sum.inr _, _ => none

/-- An engine accepting everything with sharpe 1 and 3 trades. -/
def wRun : RunDF → String → Option Metrics := fun _ _ => some (mets3 1)

/-- A one-row leaderboards mapping with a positive sharpe. -/
def wRow : RowResult :=
  { ticker := "A", name := "a", total_return := 0, sharpe_ratio := 1,
    max_drawdown := 0, win_rate := 0, trade_count := 3 }

def wLb : List (String × List RowResult) := [("MA5x20", [wRow])]

/-- The accumulator `wLb` produces for ticker A. -/
def wStats : Stats :=
  { name := "a", strategies := ["MA5x20"], sharpe_list := [1], return_list := [0],
    best_sharpe := 1, best_strategy := "MA5x20" }

/-- The composite entry `wLb` produces. -/
def wEntry : Entry := mkEntry "A" wStats

/-! ### Properties of the sort model -/

theorem length_insertDescBy (key : α → ℚ) (r : α) (l : List α) :
    (insertDescBy key r l).length = l.length + 1 := by
  induction l with
  | nil => rfl
  | cons x xs ih =>
    by_cases h : key r < key x <;> simp [insertDescBy, h, ih]

theorem length_sortDescBy (key : α → ℚ) (l : List α) :
    (sortDescBy key l).length = l.length := by
  induction l with
  | nil => rfl
  | cons x xs ih => simp [sortDescBy, length_insertDescBy, ih]

theorem mem_insertDescBy {key : α → ℚ} {r a : α} {l : List α} :
    a ∈ insertDescBy key r l ↔ a = r ∨ a ∈ l := by
  induction l with
  | nil => simp [insertDescBy]
  | cons x xs ih =>
    by_cases h : key r < key x
    · simp only [insertDescBy, if_pos h, List.mem_cons, ih]
      tauto
    · simp only [insertDescBy, if_neg h, List.mem_cons]

theorem mem_sortDescBy {key : α → ℚ} {a : α} {l : List α} :
    a ∈ sortDescBy key l ↔ a ∈ l := by
  induction l with
  | nil => simp [sortDescBy]
  | cons x xs ih => simp [sortDescBy, mem_insertDescBy, ih]

theorem head?_insertDescBy (key : α → ℚ) (r : α) (l : List α) :
    (insertDescBy key r l).head? = some r ∨ (insertDescBy key r l).head? = l.head? := by
  cases l with
  | nil => left; rfl
  | cons x xs =>
    by_cases h : key r < key x
    · right; simp [insertDescBy, if_pos h]
    · left; simp [insertDescBy, if_neg h]

theorem chain_insertDescBy {key : α → ℚ} {r : α} {l : List α}
    (h : List.Chain' (fun a b => key b ≤ key a) l) :
    List.Chain' (fun a b => key b ≤ key a) (insertDescBy key r l) := by
  induction l with
  | nil => simp [insertDescBy]
  | cons x xs ih =>
    by_cases hlt : key r < key x
    · rw [insertDescBy, if_pos hlt]
      rw [List.chain'_cons'] at h ⊢
      refine ⟨?_, ih h.2⟩
      intro y hy
      rcases head?_insertDescBy key r xs with he | he
      · rw [he] at hy
        cases hy
        exact le_of_lt hlt
      · rw [he] at hy
        exact h.1 y hy
    · rw [insertDescBy, if_neg hlt]
      rw [List.chain'_cons]
      exact ⟨not_lt.mp hlt, h⟩

theorem chain_sortDescBy (key : α → ℚ) (l : List α) :
    List.Chain' (fun a b => key b ≤ key a) (sortDescBy key l) := by
  induction l with
  | nil => simp [sortDescBy]
  | cons x xs ih => exact chain_insertDescBy ih

/-! ### List decomposition lemmas used for failure isolation -/

theorem flatMap_congr_mem {l : List α} {f g : α → List β}
    (h : ∀ a ∈ l, f a = g a) : l.flatMap f = l.flatMap g := by
  induction l with
  | nil => rfl
  | cons x xs ih =>
    rw [List.flatMap_cons, List.flatMap_cons, h x (List.mem_cons_self x xs),
      ih (fun a ha => h a (List.mem_cons_of_mem x ha))]

/-- A `flatMap` over a universe that may differ at exactly one position `p`
decomposes into the unchanged contributions before `p`, the (possibly
changed) contribution at `p`, and the unchanged contributions after `p`. -/
theorem flatMap_decomp (f f' : α → List β) :
    ∀ (p : ℕ) (L L' : List α),
      L.length = L'.length →
      (∀ q, q ≠ p → L[q]? = L'[q]?) →
      (∀ q a, q ≠ p → L[q]? = some a → f a = f' a) →
      L'.flatMap f' =
        (L.take p).flatMap f ++ (L'[p]?).elim [] f' ++ (L.drop (p + 1)).flatMap f := by
  intro p L L'
  induction L' generalizing L p with
  | nil =>
    intro hlen _ _
    have hL : L = [] := List.length_eq_zero.mp (by simpa using hlen)
    subst hL
    simp
  | cons a' T' ih =>
    intro hlen hoff hf
    cases L with
    | nil => simp at hlen
    | cons a T =>
      cases p with
      | zero =>
        have hT : T = T' := by
          apply List.ext_getElem?
          intro n
          have := hoff (n + 1) (Nat.succ_ne_zero n)
          simpa using this
        subst hT
        have hmap : T.flatMap f' = T.flatMap f := by
          apply flatMap_congr_mem
          intro b hb
          obtain ⟨n, hn, hget⟩ := List.getElem_of_mem hb
          exact (hf (n + 1) b (Nat.succ_ne_zero n)
            (by simpa using (List.getElem?_eq_getElem hn).trans (congrArg some hget))).symm
        simp [hmap]
      | succ n =>
        have ha : a = a' := by
          have h0 := hoff 0 (Nat.succ_ne_zero n).symm
          simpa using h0
        have hfa : f a = f' a := hf 0 a (Nat.succ_ne_zero n).symm (by simp)
        subst ha
        have ihT := ih n T (by simpa using hlen)
          (fun q hq => by
            have hne : q + 1 ≠ n + 1 := fun h => hq (Nat.succ_injective h)
            have := hoff (q + 1) hne
            simpa using this)
          (fun q b hq hb => by
            have hne : q + 1 ≠ n + 1 := fun h => hq (Nat.succ_injective h)
            exact hf (q + 1) b hne (by simpa using hb))
        simp only [List.flatMap_cons, List.take_succ_cons, List.drop_succ_cons,
          List.getElem?_cons_succ]
        rw [ihT, ← hfa]
        simp [List.append_assoc]

/-! ### Per-pair decomposition of the scan accumulation -/

theorem pickRow_filterMap_not_mem {s : String} {strategies : List String}
    (hs : s ∉ strategies) (g : String → Option RowResult) :
    (strategies.filterMap (fun s' => (g s').map (fun r => (s', r)))).filterMap (pickRow s) = [] := by
  induction strategies with
  | nil => rfl
  | cons a rest ih =>
    have hne : a ≠ s := fun h => hs (h ▸ List.mem_cons_self a rest)
    have hrest : s ∉ rest := fun h => hs (List.mem_cons_of_mem a h)
    cases hg : g a with
    | none => simpa [List.filterMap_cons, hg] using ih hrest
    | some r =>
      simp only [List.filterMap_cons, hg, Option.map_some']
      simpa [pickRow, hne] using ih hrest

theorem pickRow_filterMap {s : String} {strategies : List String}
    (hnd : strategies.Nodup) (hs : s ∈ strategies) (g : String → Option RowResult) :
    (strategies.filterMap (fun s' => (g s').map (fun r => (s', r)))).filterMap (pickRow s) =
      (g s).toList := by
  induction strategies with
  | nil => cases hs
  | cons a rest ih =>
    rcases List.mem_cons.mp hs with rfl | hmem
    · have hrest : s ∉ rest := (List.nodup_cons.mp hnd).1
      cases hg : g s with
      | none =>
        simpa [List.filterMap_cons, hg, Option.toList]
          using pickRow_filterMap_not_mem hrest g
      | some r =>
        simp only [List.filterMap_cons, hg, Option.map_some', Option.toList]
        have := pickRow_filterMap_not_mem hrest g
        simp [pickRow, this]
    · have hne : a ≠ s := fun h => (List.nodup_cons.mp hnd).1 (h ▸ hmem)
      have ih' := ih (List.nodup_cons.mp hnd).2 hmem
      cases hg : g a with
      | none => simpa [List.filterMap_cons, hg] using ih'
      | some r =>
        simp only [List.filterMap_cons, hg, Option.map_some']
        simpa [pickRow, hne] using ih'

/-- For a battery of distinct names, the rows instrument `i` contributes to
strategy `s` inside `scanInstrument` are exactly `pairContribution`. -/
theorem pick_scanInstrument (run : RunDF → String → Option Metrics)
    (instLoaded : Bool) (min_volume : ℚ) {strategies : List String} {s : String}
    (hnd : strategies.Nodup) (hs : s ∈ strategies) (i : Instrument) :
    (scanInstrument run instLoaded min_volume strategies i).filterMap (pickRow s) =
      pairContribution run instLoaded min_volume i s := by
  cases hd : i.data with
  | none => simp [scanInstrument, pairContribution, hd]
  | some df =>
    by_cases hg : gatePasses df min_volume
    · simp only [scanInstrument, pairContribution, hd, if_pos hg]
      exact pickRow_filterMap hnd hs (rowOf run instLoaded i df)
    · simp [scanInstrument, pairContribution, hd, hg]

theorem lookupS_map_self {F : String → α} {L : List String} {s : String}
    (hs : s ∈ L) :
    lookupS s (L.map (fun x => (x, F x))) = some (F s) := by
  induction L with
  | nil => cases hs
  | cons a rest ih =>
    by_cases h : a = s
    · subst h; simp [lookupS]
    · rcases List.mem_cons.mp hs with rfl | hmem
      · exact absurd rfl h
      · simpa [lookupS, h] using ih hmem

/-- The accumulated result list for a battery strategy `s`, as a
concatenation of per-pair contributions over the universe. -/
theorem lookupS_scanResults (run : RunDF → String → Option Metrics)
    (instLoaded : Bool) (min_volume : ℚ) {strategies : List String} {s : String}
    (hnd : strategies.Nodup) (hs : s ∈ strategies) (files : List Instrument) :
    lookupS s (scanResults run instLoaded min_volume strategies files) =
      some (files.flatMap (fun i => pairContribution run instLoaded min_volume i s)) := by
  rw [scanResults, lookupS_map_self hs]
  exact congrArg some (flatMap_congr_mem (fun i _ =>
    pick_scanInstrument run instLoaded min_volume hnd hs i))

/-! ### Invariants of the `stock_stats` accumulation -/

/-- The tickers currently present in the `stock_stats` dict. -/
def keys (m : List (String × Stats)) : List String := m.map Prod.fst

theorem mem_keys_updateStats {sname : String} {r : RowResult}
    {m : List (String × Stats)} {t : String} :
    t ∈ keys (updateStats sname r m) ↔ t ∈ keys m ∨ t = r.ticker := by
  induction m with
  | nil => simp [updateStats, keys, eq_comm]
  | cons p rest ih =>
    obtain ⟨k, st⟩ := p
    by_cases h : k = r.ticker
    · subst h
      have hupd : updateStats sname r ((r.ticker, st) :: rest) =
          (r.ticker, addRow sname r st) :: rest := by
        simp [updateStats]
      rw [hupd]
      simp only [keys, List.map_cons, List.mem_cons]
      constructor
      · exact Or.inl
      · rintro (hc | rfl)
        · exact hc
        · exact Or.inl rfl
    · have hupd : updateStats sname r ((k, st) :: rest) =
          (k, st) :: updateStats sname r rest := by
        simp [updateStats, h]
      rw [hupd]
      simp only [keys, List.map_cons, List.mem_cons] at ih ⊢
      rw [ih]
      tauto

theorem mem_keys_foldl (rows : List (String × RowResult)) :
    ∀ (m : List (String × Stats)) (t : String),
      t ∈ keys (rows.foldl (fun m q => updateStats q.1 q.2 m) m) ↔
        t ∈ keys m ∨ ∃ q ∈ rows, q.2.ticker = t := by
  induction rows with
  | nil => simp
  | cons q rest ih =>
    intro m t
    rw [List.foldl_cons, ih, mem_keys_updateStats]
    simp only [List.mem_cons]
    constructor
    · rintro ((hm | rfl) | ⟨q', hq', rfl⟩)
      · exact Or.inl hm
      · exact Or.inr ⟨q, Or.inl rfl, rfl⟩
      · exact Or.inr ⟨q', Or.inr hq', rfl⟩
    · rintro (hm | ⟨q', hq' | hq', rfl⟩)
      · exact Or.inl (Or.inl hm)
      · subst hq'; exact Or.inl (Or.inr rfl)
      · exact Or.inr ⟨q', hq', rfl⟩

/-- Per-ticker accumulator shape invariant: the three parallel lists stay in
step, and the running best is the fold of `max` over the observed sharpe
values started at `0`, with `best_strategy` pointing at a contribution that
attained it whenever it is positive. -/
def StatsPre (st : Stats) : Prop :=
  st.strategies.length = st.sharpe_list.length ∧
  st.strategies.length = st.return_list.length ∧
  st.best_sharpe = st.sharpe_list.foldl max 0 ∧
  (0 < st.best_sharpe → (st.best_strategy, st.best_sharpe) ∈ st.strategies.zip st.sharpe_list)

theorem initStats_pre (r : RowResult) : StatsPre (initStats r) := by
  refine ⟨rfl, rfl, rfl, ?_⟩
  intro h
  exact absurd h (by norm_num [initStats])

theorem addRow_eq_pos {st : Stats} {sname : String} {r : RowResult}
    (hc : st.best_sharpe < r.sharpe_ratio) :
    addRow sname r st =
      { name := st.name
        strategies := st.strategies ++ [sname]
        sharpe_list := st.sharpe_list ++ [r.sharpe_ratio]
        return_list := st.return_list ++ [r.total_return]
        best_sharpe := r.sharpe_ratio
        best_strategy := sname } := by
  simp [addRow, hc]

theorem addRow_eq_neg {st : Stats} {sname : String} {r : RowResult}
    (hc : ¬st.best_sharpe < r.sharpe_ratio) :
    addRow sname r st =
      { name := st.name
        strategies := st.strategies ++ [sname]
        sharpe_list := st.sharpe_list ++ [r.sharpe_ratio]
        return_list := st.return_list ++ [r.total_return]
        best_sharpe := st.best_sharpe
        best_strategy := st.best_strategy } := by
  simp [addRow, hc]

theorem addRow_pre {st : Stats} (h : StatsPre st) (sname : String) (r : RowResult) :
    StatsPre (addRow sname r st) ∧ (addRow sname r st).strategies ≠ [] := by
  obtain ⟨h1, h2, h3, h4⟩ := h
  have hzip : (st.strategies ++ [sname]).zip (st.sharpe_list ++ [r.sharpe_ratio]) =
      st.strategies.zip st.sharpe_list ++ [(sname, r.sharpe_ratio)] :=
    List.zip_append h1
  have hfold : (st.sharpe_list ++ [r.sharpe_ratio]).foldl max 0 =
      max (st.sharpe_list.foldl max 0) r.sharpe_ratio := by
    rw [List.foldl_append]; rfl
  by_cases hc : st.best_sharpe < r.sharpe_ratio
  · rw [addRow_eq_pos hc]
    refine ⟨⟨by simp [h1], by simp [h2], ?_, ?_⟩, by simp⟩
    · rw [hfold, ← h3, max_eq_right (le_of_lt hc)]
    · intro _
      rw [hzip]
      exact List.mem_append_right _ (List.mem_singleton.mpr rfl)
  · rw [addRow_eq_neg hc]
    refine ⟨⟨by simp [h1], by simp [h2], ?_, ?_⟩, by simp⟩
    · rw [hfold, ← h3, max_eq_left (not_lt.mp hc)]
    · intro hpos
      rw [hzip]
      exact List.mem_append_left _ (h4 hpos)

/-- Full accumulator invariant: shape invariant plus nonemptiness (an
accumulator is only ever created together with its first append). -/
def StatsInv (p : String × Stats) : Prop :=
  StatsPre p.2 ∧ p.2.strategies ≠ []

theorem updateStats_inv {sname : String} {r : RowResult} {m : List (String × Stats)}
    (h : ∀ p ∈ m, StatsInv p) : ∀ p ∈ updateStats sname r m, StatsInv p := by
  induction m with
  | nil =>
    intro p hp
    rcases List.mem_singleton.mp hp with rfl
    have := addRow_pre (initStats_pre r) sname r
    exact ⟨this.1, this.2⟩
  | cons q rest ih =>
    obtain ⟨k, st⟩ := q
    intro p hp
    by_cases hk : k = r.ticker
    · rw [updateStats, if_pos hk] at hp
      rcases List.mem_cons.mp hp with rfl | hmem
      · have hst : StatsInv (k, st) := h (k, st) (List.mem_cons_self _ _)
        have := addRow_pre hst.1 sname r
        exact ⟨this.1, this.2⟩
      · exact h p (List.mem_cons_of_mem _ hmem)
    · rw [updateStats, if_neg hk] at hp
      rcases List.mem_cons.mp hp with rfl | hmem
      · exact h _ (List.mem_cons_self _ _)
      · exact ih (fun p' hp' => h p' (List.mem_cons_of_mem _ hp')) p hmem

theorem foldl_stats_inv (rows : List (String × RowResult)) :
    ∀ (m : List (String × Stats)), (∀ p ∈ m, StatsInv p) →
      ∀ p ∈ rows.foldl (fun m q => updateStats q.1 q.2 m) m, StatsInv p := by
  induction rows with
  | nil => intro m hm; simpa using hm
  | cons q rest ih =>
    intro m hm
    rw [List.foldl_cons]
    exact ih _ (updateStats_inv hm)

/-- Every accumulator in `stock_stats` satisfies the invariant. -/
theorem stockStats_inv (results : List (String × List RowResult)) :
    ∀ p ∈ stockStats results, StatsInv p :=
  foldl_stats_inv (rowsSeq results) [] (by intro p hp; cases hp)

theorem mem_rowsSeq {lb : List (String × List RowResult)} {q : String × RowResult} :
    q ∈ rowsSeq lb ↔ ∃ p ∈ lb, ∃ r ∈ p.2, q = (p.1, r) := by
  simp only [rowsSeq, List.mem_flatMap, List.mem_map]
  constructor
  · rintro ⟨p, hp, r, hr, rfl⟩
    exact ⟨p, hp, r, hr, rfl⟩
  · rintro ⟨p, hp, r, hr, rfl⟩
    exact ⟨p, hp, r, hr, rfl⟩

theorem exists_rankingData_iff {lb : List (String × List RowResult)} {t : String} :
    (∃ e ∈ rankingData lb, e.ticker = t) ↔ t ∈ keys (stockStats lb) := by
  simp only [rankingData, List.mem_map, keys]
  constructor
  · rintro ⟨e, ⟨p, hp, rfl⟩, ht⟩
    exact ⟨p, hp, ht⟩
  · rintro ⟨p, hp, ht⟩
    exact ⟨mkEntry p.1 p.2, ⟨p, hp, rfl⟩, ht⟩

theorem mem_keys_stockStats {lb : List (String × List RowResult)} {t : String} :
    t ∈ keys (stockStats lb) ↔ ∃ p ∈ lb, ∃ r ∈ p.2, r.ticker = t := by
  rw [stockStats, mem_keys_foldl]
  simp only [keys, List.map_nil, List.not_mem_nil, false_or]
  constructor
  · rintro ⟨q, hq, ht⟩
    obtain ⟨p, hp, r, hr, rfl⟩ := mem_rowsSeq.mp hq
    exact ⟨p, hp, r, hr, ht⟩
  · rintro ⟨p, hp, r, hr, ht⟩
    exact ⟨(p.1, r), mem_rowsSeq.mpr ⟨p, hp, r, hr, rfl⟩, ht⟩

theorem mem_of_mem_overall {lb : List (String × List RowResult)} {top_n : ℕ} {e : Entry}
    (h : e ∈ compute_overall_ranking lb top_n) : e ∈ rankingData lb :=
  mem_sortDescBy.mp (List.take_subset _ _ h)

/-! ### Claim theorems -/

/-- C1 (confirmed): a composite ranking entry is built for ticker T iff T
appears as a member of at least one per-strategy leaderboard: the aggregator
constructs `ranking_data` exclusively from leaderboard rows (the entries it
then sorts and truncates), so every ticker present in some leaderboard gets
an entry, every ticker absent from all leaderboards gets none, and every
entry of the emitted (sorted, truncated) composite ranking names a ticker of
some leaderboard row. -/
theorem composite_scope (lb : List (String × List RowResult)) (t : String) (top_n : ℕ) :
    ((∃ p ∈ lb, ∃ r ∈ p.2, r.ticker = t) ↔ ∃ e ∈ rankingData lb, e.ticker = t) ∧
    (∀ e ∈ compute_overall_ranking lb top_n, ∃ p ∈ lb, ∃ r ∈ p.2, r.ticker = e.ticker) := by
  constructor
  · rw [exists_rankingData_iff, mem_keys_stockStats]
  · intro e he
    have : ∃ e' ∈ rankingData lb, e'.ticker = e.ticker := ⟨e, mem_of_mem_overall he, rfl⟩
    exact mem_keys_stockStats.mp (exists_rankingData_iff.mp this)

/-- C8 (confirmed): every entry of the emitted composite ranking satisfies
`score = strategy_count * avg_sharpe` — exact in this rational model (the
Python code computes `score` from exactly these two fields, so the identity
holds up to floating-point evaluation of that product). -/
theorem score_formula (lb : List (String × List RowResult)) (top_n : ℕ) :
    ∀ e ∈ compute_overall_ranking lb top_n,
      e.score = (e.strategy_count : ℚ) * e.avg_sharpe := by
  intro e he
  obtain ⟨p, _, rfl⟩ := List.mem_map.mp (mem_of_mem_overall he)
  rfl

/-- C10 (confirmed): `compute_overall_ranking` is total on every leaderboard
mapping — a per-ticker accumulator is created only together with its first
append, so at scoring time every accumulator has `strategy_count =
len(strategies) ≥ 1`, its three parallel lists have that same length, and
the divisor `strategy_count` of the two mean computations is nonzero. -/
theorem accumulator_wellformed (lb : List (String × List RowResult)) :
    ∀ p ∈ stockStats lb,
      1 ≤ p.2.strategies.length ∧
      p.2.strategies.length = p.2.sharpe_list.length ∧
      p.2.strategies.length = p.2.return_list.length ∧
      ((p.2.strategies.length : ℚ) ≠ 0) := by
  intro p hp
  obtain ⟨⟨h1, h2, _, _⟩, hne⟩ := stockStats_inv lb p hp
  have hlen : 0 < p.2.strategies.length := List.length_pos.mpr hne
  exact ⟨hlen, h1, h2, Nat.cast_ne_zero.mpr hlen.ne'⟩

/-- C3 as amended (the claim as stated is refuted by
`best_tracking_cex`): for every composite entry, `best_sharpe` is the
maximum of 0 and the ticker's contributing sharpe values (the running best
starts at 0 and only updates on a strictly greater value), and whenever
`best_sharpe` is strictly positive — equivalently, whenever the true maximum
of the contributing sharpe values is strictly positive, in which case
`best_sharpe` does equal that maximum — `best_strategy` is a strategy name
paired with a contribution equal to `best_sharpe`. -/
theorem best_tracking_amended (lb : List (String × List RowResult)) :
    ∀ e ∈ rankingData lb, ∃ p ∈ stockStats lb,
      e = mkEntry p.1 p.2 ∧
      e.best_sharpe = p.2.sharpe_list.foldl max 0 ∧
      (0 < e.best_sharpe →
        (e.best_strategy, e.best_sharpe) ∈ p.2.strategies.zip p.2.sharpe_list) := by
  intro e he
  obtain ⟨p, hp, rfl⟩ := List.mem_map.mp he
  obtain ⟨⟨_, _, h3, h4⟩, _⟩ := stockStats_inv lb p hp
  exact ⟨p, hp, rfl, h3, h4⟩

/-- C7 (confirmed): every leaderboard returned by the scan has at most
`top_n` members and is ordered by `sharpe_ratio` descending (each member's
sharpe is ≥ its successor's), and a strategy whose accumulation is empty
still yields its (empty) leaderboard in the returned mapping rather than an
error — the post-scan pass is total and keeps every battery key. -/
theorem leaderboard_bound_order (run : RunDF → String → Option Metrics)
    (instLoaded : Bool) (min_volume : ℚ) (top_n : ℕ) (strategies : List String)
    (files : List Instrument) :
    (∀ p ∈ rankResults top_n (scanResults run instLoaded min_volume strategies files),
      p.2.length ≤ top_n ∧
        List.Chain' (fun a b => b.sharpe_ratio ≤ a.sharpe_ratio) p.2) ∧
    (∀ p ∈ scanResults run instLoaded min_volume strategies files, p.2 = [] →
      (p.1, ([] : List RowResult)) ∈
        rankResults top_n (scanResults run instLoaded min_volume strategies files)) := by
  constructor
  · intro p hp
    obtain ⟨q, _, rfl⟩ := List.mem_map.mp hp
    constructor
    · rw [List.length_take]
      exact min_le_left _ _
    · exact (chain_sortDescBy (fun r => r.sharpe_ratio) q.2).take top_n
  · intro p hp hnil
    refine List.mem_map.mpr ⟨p, hp, ?_⟩
    rw [hnil]
    simp [sortDescBy]

/-- C6 (confirmed): every row retained in any leaderboard of the scan has
`trade_count ≥ 3` and stems from a universe instrument whose price data
loaded and whose mean volume is ≥ `min_volume` (the instrument passed the
single liquidity gate checked once per instrument, before the strategy
loop). Stated under the well-formedness hypothesis that every loaded price
series is nonempty, so that its mean volume is defined. -/
theorem leaderboard_member_gates (run : RunDF → String → Option Metrics)
    (instLoaded : Bool) (min_volume : ℚ) (top_n : ℕ) (files : List Instrument)
    (hvol : ∀ i ∈ files, ∀ df, i.data = some df → df.volume ≠ []) :
    ∀ p ∈ rankResults top_n
      (scanResults run instLoaded min_volume (get_all_strategies instLoaded) files),
    ∀ r ∈ p.2,
      3 ≤ r.trade_count ∧
      ∃ i ∈ files, ∃ df, i.data = some df ∧ i.ticker = r.ticker ∧ i.name = r.name ∧
        min_volume ≤ df.volume.sum / (df.volume.length : ℚ) := by
  intro p hp r hr
  obtain ⟨q, hq, rfl⟩ := List.mem_map.mp hp
  have hr' : r ∈ q.2 := mem_sortDescBy.mp (List.take_subset _ _ hr)
  obtain ⟨s, _, rfl⟩ := List.mem_map.mp hq
  obtain ⟨i, hi, hri⟩ := List.mem_flatMap.mp hr'
  obtain ⟨pr, hpr, hpick⟩ := List.mem_filterMap.mp hri
  cases hd : i.data with
  | none => simp [scanInstrument, hd] at hpr
  | some df =>
    by_cases hg : gatePasses df min_volume
    · simp only [scanInstrument, hd] at hpr
      rw [if_pos hg] at hpr
      have hpr_eq : pr = (s, r) := by
        rw [pickRow] at hpick
        by_cases h1 : pr.1 = s
        · rw [if_pos h1] at hpick
          exact Prod.ext h1 (Option.some.inj hpick)
        · rw [if_neg h1] at hpick; cases hpick
      subst hpr_eq
      obtain ⟨s', _, hmap⟩ := List.mem_filterMap.mp hpr
      cases hrow : rowOf run instLoaded i df s' with
      | none => rw [hrow] at hmap; cases hmap
      | some r0 =>
        rw [hrow, Option.map_some'] at hmap
        have hr0r : r0 = r := congrArg Prod.snd (Option.some.inj hmap)
        cases he : evalPair run instLoaded i df s' with
        | none =>
          simp only [rowOf, he] at hrow
          exact Option.noConfusion hrow
        | some m =>
          simp only [rowOf, he] at hrow
          by_cases htc : 3 ≤ m.trade_count
          · rw [if_pos htc] at hrow
            have hrm : mkRow i m = r := (Option.some.inj hrow).trans hr0r
            refine ⟨?_, i, hi, df, hd, ?_, ?_, ?_⟩
            · rw [← hrm]; exact htc
            · rw [← hrm]; rfl
            · rw [← hrm]; rfl
            · have hne : df.volume.isEmpty = false := by
                simpa using hvol i hi df hd
              simp only [gatePasses, meanVolume, hne, Bool.false_eq_true, if_false] at hg
              simp only [Bool.not_eq_true', decide_eq_false_iff_not, not_lt] at hg
              exact hg
          · rw [if_neg htc] at hrow; cases hrow
    · simp only [scanInstrument, hd] at hpr
      rw [if_neg hg] at hpr
      cases hpr

/-- C9 (confirmed): when the merged institutional series is unavailable for
an instrument (the global dataset never loaded, the per-instrument merge
failed, or the merged frame is empty), every institutional-flow strategy
(name containing 連買 or 連賣) is skipped for that instrument without the
engine being invoked — the skip holds uniformly in `run` — while every
price-only strategy is evaluated as `run` applied to the raw price frame,
unaffected by institutional availability. -/
theorem institutional_skip (run : RunDF → String → Option Metrics)
    (instLoaded : Bool) (i : Instrument) (df : PriceDF) (s : String) :
    (isInstFlow s = true →
      (effectiveInst instLoaded i = none ∨
        ∃ idf, effectiveInst instLoaded i = some idf ∧ idf.rows = []) →
      evalPair run instLoaded i df s = none) ∧
    (isInstFlow s = false → evalPair run instLoaded i df s = run (Sum.inl df) s) := by
  constructor
  · intro hf hun
    rw [evalPair, if_pos hf]
    rcases hun with hnone | ⟨idf, hsome, hrows⟩
    · rw [hnone]
    · rw [hsome]
      simp [hrows]
  · intro hf
    rw [evalPair, if_neg (by simp [hf])]

/-- C5 (confirmed): failure isolation. Injecting a failure into the
evaluation of one `(instrument, strategy)` pair — position `p` of the
universe together with strategy `s₀`: the hypotheses let the universe entry
at `p` be corrupted arbitrarily (covering a malformed price file or missing
institutional series) and the engine behave arbitrarily differently there
(covering a strategy/engine exception), while everything away from
`(p, s₀)` evaluates identically — leaves the accumulated results of every
other strategy unchanged, and the injected strategy's accumulated list still
consists of the unchanged contributions of every other instrument, in their
original positions, around whatever the injected pair now contributes. The
scan itself is a total function (every failure is an `Option`/skip, mirroring
the catch-all handlers), so it always runs to completion and propagates
nothing. -/
theorem failure_isolation (run run' : RunDF → String → Option Metrics)
    (instLoaded : Bool) (min_volume : ℚ) (strategies : List String)
    (files files' : List Instrument) (p : ℕ) (s₀ : String)
    (hnd : strategies.Nodup)
    (hlen : files.length = files'.length)
    (hoff : ∀ q, q ≠ p → files[q]? = files'[q]?)
    (hpair : ∀ q i, q ≠ p → files[q]? = some i → ∀ s ∈ strategies,
      pairContribution run instLoaded min_volume i s =
        pairContribution run' instLoaded min_volume i s)
    (hinj : ∀ i i', files[p]? = some i → files'[p]? = some i' →
      ∀ s ∈ strategies, s ≠ s₀ →
      pairContribution run instLoaded min_volume i s =
        pairContribution run' instLoaded min_volume i' s) :
    (∀ s ∈ strategies, s ≠ s₀ →
      lookupS s (scanResults run' instLoaded min_volume strategies files') =
        lookupS s (scanResults run instLoaded min_volume strategies files)) ∧
    (s₀ ∈ strategies →
      lookupS s₀ (scanResults run' instLoaded min_volume strategies files') =
        some ((files.take p).flatMap
            (fun i => pairContribution run instLoaded min_volume i s₀) ++
          (files'[p]?).elim []
            (fun i' => pairContribution run' instLoaded min_volume i' s₀) ++
          (files.drop (p + 1)).flatMap
            (fun i => pairContribution run instLoaded min_volume i s₀))) := by
  constructor
  · intro s hs hne
    rw [lookupS_scanResults run' instLoaded min_volume hnd hs files',
      lookupS_scanResults run instLoaded min_volume hnd hs files]
    refine congrArg some ?_
    have hdec' := flatMap_decomp (fun i => pairContribution run instLoaded min_volume i s)
      (fun i => pairContribution run' instLoaded min_volume i s) p files files'
      hlen hoff (fun q a hq ha => hpair q a hq ha s hs)
    have hdec := flatMap_decomp (fun i => pairContribution run instLoaded min_volume i s)
      (fun i => pairContribution run instLoaded min_volume i s) p files files
      rfl (fun _ _ => rfl) (fun _ _ _ _ => rfl)
    rw [hdec', hdec]
    have hmid : (files'[p]?).elim []
        (fun i' => pairContribution run' instLoaded min_volume i' s) =
        (files[p]?).elim [] (fun i => pairContribution run instLoaded min_volume i s) := by
      cases hfp : files[p]? with
      | none =>
        have hfp' : files'[p]? = none := by
          rw [List.getElem?_eq_none_iff] at hfp ⊢
          omega
        rw [hfp']
        rfl
      | some i =>
        cases hfp' : files'[p]? with
        | none =>
          rw [List.getElem?_eq_none_iff] at hfp'
          have hcontra : files[p]? = none := by
            rw [List.getElem?_eq_none_iff]
            omega
          rw [hcontra] at hfp
          cases hfp
        | some i' =>
          simpa using (hinj i i' hfp hfp' s hs hne).symm
    rw [hmid]
  · intro hs0
    rw [lookupS_scanResults run' instLoaded min_volume hnd hs0 files']
    refine congrArg some ?_
    exact flatMap_decomp (fun i => pairContribution run instLoaded min_volume i s₀)
      (fun i => pairContribution run' instLoaded min_volume i s₀) p files files'
      hlen hoff (fun q a hq ha => hpair q a hq ha s₀ hs0)

/-- C3 counterexample: for a ticker whose single contribution has sharpe
`-1`, the emitted composite entry reports `best_sharpe = 0` (the running
best starts at 0 and only updates on strictly greater values) and an empty
`best_strategy`, while the maximum of its contributing sharpe values is
`-1 ≠ 0` — refuting the claim that `best_sharpe` always equals the maximum
of the contributing sharpe values. -/
theorem best_tracking_cex :
    (rankingData cexLb).map (fun e => (e.ticker, e.best_sharpe, e.best_strategy)) =
      [("2330", 0, "")] ∧
    (stockStats cexLb).map (fun p => p.2.sharpe_list) = [[-1]] ∧
    ((0 : ℚ) ≠ -1) :=
  ⟨by decide, by decide, by norm_num⟩

/-- C2 evaluation at the failing input: `market_scan_all_strategies` with
`top_n = 1` on a two-instrument universe whose engine fills two distinct
leaderboards with two distinct tickers. Because line 220 of the source calls
`compute_overall_ranking(results)` without forwarding `top_n`, the composite
ranking is capped by the aggregator's own default 30, not by the scan's
`top_n`: it has 2 entries, exceeding `top_n = 1`, contradicting the claim
that the configured `top_n` caps the composite ranking. -/
theorem composite_cap_eval :
    ((market_scan_all_strategies runBug [fileA, fileB] false 1 500).2.length = 2) ∧
    ¬(2 ≤ 1) := by
  constructor
  · norm_num [market_scan_all_strategies, compute_overall_ranking, rankingData, stockStats,
      rowsSeq, rankResults, scanResults, scanInstrument, get_all_strategies, fileA, fileB,
      runBug, mets3, evalPair, rowOf, mkRow, gatePasses, meanVolume, pickRow, updateStats,
      addRow, initStats, mkEntry, sortDescBy, insertDescBy, isInstFlow, containsSub,
      startsWithL, effectiveInst, keys]
  · decide

/-! ### Witnesses -/

theorem composite_scope_witness :
    ((∃ p ∈ wLb, ∃ r ∈ p.2, r.ticker = "A") ↔ ∃ e ∈ rankingData wLb, e.ticker = "A") ∧
    (∀ e ∈ compute_overall_ranking wLb 30, ∃ p ∈ wLb, ∃ r ∈ p.2, r.ticker = e.ticker) :=
  composite_scope wLb "A" 30

theorem score_formula_witness :
    wEntry.score = (wEntry.strategy_count : ℚ) * wEntry.avg_sharpe :=
  score_formula wLb 30 wEntry (show wEntry ∈ [wEntry] from List.mem_singleton.mpr rfl)

theorem accumulator_wellformed_witness :
    1 ≤ wStats.strategies.length ∧
    wStats.strategies.length = wStats.sharpe_list.length ∧
    wStats.strategies.length = wStats.return_list.length ∧
    ((wStats.strategies.length : ℚ) ≠ 0) :=
  accumulator_wellformed wLb ("A", wStats)
    (show ("A", wStats) ∈ [("A", wStats)] from List.mem_singleton.mpr rfl)

theorem best_tracking_amended_witness :
    ∃ p ∈ stockStats wLb,
      wEntry = mkEntry p.1 p.2 ∧
      wEntry.best_sharpe = p.2.sharpe_list.foldl max 0 ∧
      (0 < wEntry.best_sharpe →
        (wEntry.best_strategy, wEntry.best_sharpe) ∈ p.2.strategies.zip p.2.sharpe_list) :=
  best_tracking_amended wLb wEntry (show wEntry ∈ [wEntry] from List.mem_singleton.mpr rfl)

theorem leaderboard_bound_order_witness :
    (∀ p ∈ rankResults 30 (scanResults wRun false 500 ["MA5x20"] [fileA]),
      p.2.length ≤ 30 ∧
        List.Chain' (fun a b => b.sharpe_ratio ≤ a.sharpe_ratio) p.2) ∧
    (∀ p ∈ scanResults wRun false 500 ["MA5x20"] [fileA], p.2 = [] →
      (p.1, ([] : List RowResult)) ∈
        rankResults 30 (scanResults wRun false 500 ["MA5x20"] [fileA])) :=
  leaderboard_bound_order wRun false 500 30 ["MA5x20"] [fileA]

theorem leaderboard_member_gates_witness :
    3 ≤ (mkRow fileA (mets3 1)).trade_count ∧
    ∃ i ∈ [fileA], ∃ df, i.data = some df ∧
      i.ticker = (mkRow fileA (mets3 1)).ticker ∧
      i.name = (mkRow fileA (mets3 1)).name ∧
      (500 : ℚ) ≤ df.volume.sum / (df.volume.length : ℚ) :=
  leaderboard_member_gates wRun false 500 30 [fileA]
    (by
      intro i hi df hdf
      rcases List.mem_singleton.mp hi with rfl
      have hv : df = { volume := [1000] } := (Option.some.inj hdf).symm
      rw [hv]
      decide)
    ("MA5x20", [mkRow fileA (mets3 1)])
    (by
      norm_num [rankResults, scanResults, scanInstrument, get_all_strategies, evalPair,
        rowOf, isInstFlow, containsSub, startsWithL, gatePasses, meanVolume, fileA, wRun,
        mets3, mkRow, pickRow, sortDescBy, insertDescBy, effectiveInst])
    (mkRow fileA (mets3 1))
    (show mkRow fileA (mets3 1) ∈ [mkRow fileA (mets3 1)] from List.mem_singleton.mpr rfl)

theorem institutional_skip_witness :
    evalPair wRun false fileA { volume := [1000] } "外資連買" = none ∧
    evalPair wRun false fileA { volume := [1000] } "RSI" =
      wRun (Sum.inl { volume := [1000] }) "RSI" :=
  ⟨(institutional_skip wRun false fileA { volume := [1000] } "外資連買").1
      (by decide) (Or.inl (by decide)),
    (institutional_skip wRun false fileA { volume := [1000] } "RSI").2 (by decide)⟩

theorem failure_isolation_witness :
    (∀ s ∈ ["MA5x20", "MA5x60"], s ≠ "MA5x20" →
      lookupS s (scanResults wRun false 500 ["MA5x20", "MA5x60"] [fileA]) =
        lookupS s (scanResults wRun false 500 ["MA5x20", "MA5x60"] [fileA])) ∧
    ("MA5x20" ∈ ["MA5x20", "MA5x60"] →
      lookupS "MA5x20" (scanResults wRun false 500 ["MA5x20", "MA5x60"] [fileA]) =
        some ((([fileA] : List Instrument).take 0).flatMap
            (fun i => pairContribution wRun false 500 i "MA5x20") ++
          (([fileA] : List Instrument)[0]?).elim []
            (fun i' => pairContribution wRun false 500 i' "MA5x20") ++
          (([fileA] : List Instrument).drop 1).flatMap
            (fun i => pairContribution wRun false 500 i "MA5x20"))) :=
  failure_isolation wRun wRun false 500 ["MA5x20", "MA5x60"] [fileA] [fileA] 0 "MA5x20"
    (by decide) rfl (fun _ _ => rfl)
    (by
      intro q i hq hqi s _
      cases q with
      | zero => exact absurd rfl hq
      | succ n => simp at hqi)
    (by
      intro i i' h h' s _ _
      rcases Option.some.inj h with rfl
      rcases Option.some.inj h' with rfl
      rfl)

end TWScan
